import Mathlib

/-!
Shallow embedding of the `raymond` ray tracer (src/src/lib.rs).

Rust `f64` arithmetic is modelled by real numbers; `sqrt` is `Real.sqrt`,
`f64::consts::PI` is `Real.pi`.  Mutable byte slices are modelled by
`List ℕ` with functional update.  Rust `Option<f64>` is `Option ℝ`.
-/

noncomputable section

open Classical

/-- Rust trait `Square`: `fn sqr(self) -> f64 { self.powi(2) }`. -/
def sqr (x : ℝ) : ℝ := x ^ 2

/-- `struct Vec3 { x: f64, y: f64, z: f64 }`. -/
@[ext]
structure Vec3 where
  x : ℝ
  y : ℝ
  z : ℝ

namespace Vec3

/-- `Vec3::new`. -/
def new (x y z : ℝ) : Vec3 := ⟨x, y, z⟩

/-- `Vec3::length`: `sqrt(x² + y² + z²)`. -/
def length (v : Vec3) : ℝ := Real.sqrt (sqr v.x + sqr v.y + sqr v.z)

/-- `Vec3::unit`: multiply each component by the inverse of the length. -/
def unit (v : Vec3) : Vec3 :=
  let inv := 1 / v.length
  Vec3.new (v.x * inv) (v.y * inv) (v.z * inv)

/-- `Vec3::add`. -/
def add (v w : Vec3) : Vec3 := Vec3.new (v.x + w.x) (v.y + w.y) (v.z + w.z)

/-- `Vec3::subtract`. -/
def subtract (v w : Vec3) : Vec3 := Vec3.new (v.x - w.x) (v.y - w.y) (v.z - w.z)

/-- `Vec3::scale`. -/
def scale (v : Vec3) (f : ℝ) : Vec3 := Vec3.new (v.x * f) (v.y * f) (v.z * f)

/-- `Vec3::dot`. -/
def dot (v w : Vec3) : ℝ := v.x * w.x + v.y * w.y + v.z * w.z

end Vec3

/-- `struct RGB { red: f64, green: f64, blue: f64 }`. -/
@[ext]
structure RGB where
  red : ℝ
  green : ℝ
  blue : ℝ

namespace RGB

/-- `RGB::new`. -/
def new (red green blue : ℝ) : RGB := ⟨red, green, blue⟩

/-- `RGB::red()` (renamed: `red` is taken by the field accessor). -/
def redColor : RGB := RGB.new 1 0 0

/-- `RGB::green()` (renamed: `green` is taken by the field accessor). -/
def greenColor : RGB := RGB.new 0 1 0

/-- `RGB::blue()` (renamed: `blue` is taken by the field accessor). -/
def blueColor : RGB := RGB.new 0 0 1

/-- `RGB::black()`. -/
def black : RGB := RGB.new 0 0 0

/-- `RGB::white()`. -/
def white : RGB := RGB.new 1 1 1

/-- `RGB::add`: componentwise sum, no clamping. -/
def add (c d : RGB) : RGB := RGB.new (c.red + d.red) (c.green + d.green) (c.blue + d.blue)

/-- `RGB::shade`: `f ≤ 0` gives black, `f ≥ 1` gives the color unchanged,
otherwise each channel is multiplied by `f`. -/
def shade (c : RGB) (f : ℝ) : RGB :=
  if f ≤ 0 then RGB.black
  else if 1 ≤ f then c
  else RGB.new (c.red * f) (c.green * f) (c.blue * f)

end RGB

/-- Rust `f64::round`: round half away from zero. -/
def roundAway (x : ℝ) : ℤ := if 0 ≤ x then ⌊x + 1 / 2⌋ else ⌈x - 1 / 2⌉

/-- Rust `as u8` applied to a (round-valued) float: the cast saturates
into `[0, 255]`. -/
def satU8 (n : ℤ) : ℕ := (max 0 (min n 255)).toNat

namespace RGB

/-- `RGB::write`: the first three bytes of the 4-byte slice receive
`(255 * min(channel, 1)).round() as u8`, the fourth receives 255. -/
def write (c : RGB) (pixels : List ℕ) : List ℕ :=
  let m : ℝ := 255
  let red := m * min c.red 1
  let green := m * min c.green 1
  let blue := m * min c.blue 1
  ((((pixels.set 0 (satU8 (roundAway red))).set 1 (satU8 (roundAway green))).set 2
    (satU8 (roundAway blue))).set 3 255)

end RGB

/-- `struct Ray { origin: Vec3, direction: Vec3 }`. -/
@[ext]
structure Ray where
  origin : Vec3
  direction : Vec3

namespace Ray

/-- `Ray::new`. -/
def new (origin direction : Vec3) : Ray := ⟨origin, direction⟩

/-- `Ray::cast`: direction is `to - from`, not normalized. -/
def cast (frm dest : Vec3) : Ray := Ray.new frm (dest.subtract frm)

/-- `Ray::length`. -/
def length (r : Ray) : ℝ := r.direction.length

/-- `Ray::unit`: same origin, normalized direction. -/
def unit (r : Ray) : Ray := Ray.new r.origin r.direction.unit

/-- `Ray::point_at`: `origin + direction * t`. -/
def point_at (r : Ray) (t : ℝ) : Vec3 := r.origin.add (r.direction.scale t)

/-- `Ray::reflect`: mirror reflection about `normal`. -/
def reflect (r : Ray) (point normal : Vec3) : Ray :=
  let cosine := r.direction.dot normal
  let reflection := r.direction.subtract (normal.scale (2 * cosine))
  Ray.new point reflection

end Ray

/-- `struct Sphere { center, radius, color, glossiness }`. -/
structure Sphere where
  center : Vec3
  radius : ℝ
  color : RGB
  glossiness : ℝ

namespace Sphere

/-- `Sphere::new`. -/
def new (center : Vec3) (radius : ℝ) (color : RGB) (glossiness : ℝ) : Sphere :=
  ⟨center, radius, color, glossiness⟩

/-- `Sphere::intersect`: normalize the ray direction, compute the
discriminant, and return the first of the two roots that is `≥ 1e-10`. -/
def intersect (s : Sphere) (ray : Ray) : Option ℝ :=
  let oc := ray.origin.subtract s.center
  let d := (ray.direction.unit).dot oc
  let sqrtTerm := sqr d - (sqr oc.length - sqr s.radius)
  if sqrtTerm < 0 then none
  else
    let sq := Real.sqrt sqrtTerm
    [-d - sq, -d + sq].find? (fun t => decide ((1e-10 : ℝ) ≤ t))

/-- `Sphere::surface_normal`: `point - center`, not normalized. -/
def surface_normal (s : Sphere) (point : Vec3) : Vec3 := point.subtract s.center

end Sphere

/-- `struct Light { pos: Vec3, power: f64 }`. -/
structure Light where
  pos : Vec3
  power : ℝ

namespace Light

/-- `Light::new`. -/
def new (pos : Vec3) (power : ℝ) : Light := ⟨pos, power⟩

/-- The `for sphere in spheres` loop of `Light::illuminate`: an early
return of 0 on the first occluding sphere, otherwise the cosine-weighted
inverse-square formula computed after the loop. -/
def illumLoop (l : Light) (spheres : List Sphere) (unitRay : Ray) (len : ℝ)
    (surface_normal : Vec3) : ℝ :=
  match spheres with
  | [] =>
    let cosine := surface_normal.dot unitRay.direction / surface_normal.length
    l.power * cosine / (4 * Real.pi * sqr len)
  | s :: rest =>
    match s.intersect unitRay with
    | some t =>
      if t < len then 0 else l.illumLoop rest unitRay len surface_normal
    | none => l.illumLoop rest unitRay len surface_normal

/-- `Light::illuminate`. -/
def illuminate (l : Light) (spheres : List Sphere) (point surface_normal : Vec3) : ℝ :=
  let ray := Ray.cast point l.pos
  let len := ray.length
  let unitRay := ray.unit
  l.illumLoop spheres unitRay len surface_normal

end Light

/-- `struct Film { origin: Vec3, width: f64, height: f64 }`. -/
@[ext]
structure Film where
  origin : Vec3
  width : ℝ
  height : ℝ

namespace Film

/-- `Film::new`. -/
def new (origin : Vec3) (width height : ℝ) : Film := ⟨origin, width, height⟩

/-- `Film::project`: map normalized image coordinates to a world point,
with the `y` axis flipped. -/
def project (f : Film) (x y : ℝ) : Vec3 :=
  Vec3.new (f.origin.x + f.width * x) (f.origin.y + f.height - f.height * y) f.origin.z

end Film

/-- `enum Move`. -/
inductive Move where
  | left
  | right
  | up
  | down
  | forward
  | back

/-- `struct Camera { eye: Vec3, film: Film }`. -/
@[ext]
structure Camera where
  eye : Vec3
  film : Film

namespace Camera

/-- `Camera::new`. -/
def new (eye : Vec3) (film : Film) : Camera := ⟨eye, film⟩

/-- `Camera::cast`: the primary ray from the eye through the projected
film point, direction normalized. -/
def cast (c : Camera) (x y : ℝ) : Ray :=
  let origin := c.eye
  let direction := ((c.film.project x y).subtract origin).unit
  Ray.new origin direction

/-- `Camera::move_one`: translate `eye` and `film.origin` together by one
unit along one axis. -/
def move_one (c : Camera) (mov : Move) : Camera :=
  match mov with
  | .left =>
    { c with eye := { c.eye with x := c.eye.x - 1 },
             film := { c.film with origin := { c.film.origin with x := c.film.origin.x - 1 } } }
  | .right =>
    { c with eye := { c.eye with x := c.eye.x + 1 },
             film := { c.film with origin := { c.film.origin with x := c.film.origin.x + 1 } } }
  | .up =>
    { c with eye := { c.eye with y := c.eye.y + 1 },
             film := { c.film with origin := { c.film.origin with y := c.film.origin.y + 1 } } }
  | .down =>
    { c with eye := { c.eye with y := c.eye.y - 1 },
             film := { c.film with origin := { c.film.origin with y := c.film.origin.y - 1 } } }
  | .forward =>
    { c with eye := { c.eye with z := c.eye.z + 1 },
             film := { c.film with origin := { c.film.origin with z := c.film.origin.z + 1 } } }
  | .back =>
    { c with eye := { c.eye with z := c.eye.z - 1 },
             film := { c.film with origin := { c.film.origin with z := c.film.origin.z - 1 } } }

end Camera

/-- `struct Scene { camera, spheres, lights }`. -/
structure Scene where
  camera : Camera
  spheres : List Sphere
  lights : List Light

/-- `struct Image { width, height, pixels }`; the byte buffer is a list of
byte values. -/
structure Image where
  width : ℕ
  height : ℕ
  pixels : List ℕ

namespace Image

/-- `Image::new`: a zeroed buffer of `(width * height) << 2` bytes. -/
def new (width height : ℕ) : Image := ⟨width, height, List.replicate (width * height * 4) 0⟩

/-- `Image::draw`: write the color into the 4-byte slice starting at
`(x + y * width) << 2` (mutable slice update modelled functionally). -/
def draw (img : Image) (x y : ℕ) (color : RGB) : Image :=
  let idx := (x + y * img.width) * 4
  { img with pixels :=
      img.pixels.take idx ++ color.write ((img.pixels.drop idx).take 4) ++
        img.pixels.drop (idx + 4) }

end Image

namespace Scene

/-- `Scene::new`: the hardcoded camera, spheres and lights. -/
def new : Scene :=
  let camera := Camera.new (Vec3.new 0 0 (-6)) (Film.new (Vec3.new (-4) (-3) 0) 8 4.5)
  let spheres := [
    Sphere.new (Vec3.new (-1) 4 15) 2 RGB.redColor 1,
    Sphere.new (Vec3.new 2 2 20) 5 RGB.greenColor 1,
    Sphere.new (Vec3.new 10 (-1) 25) 3 (RGB.new 0.5 0 0.5) 0.7,
    Sphere.new (Vec3.new 12 4 24) 2 (RGB.new 1 1 0) 0.5,
    Sphere.new (Vec3.new (-5) (-2) 12) 3 RGB.blueColor 0.7,
    Sphere.new (Vec3.new (-1) (-1) 11) 1 (RGB.new 1 0.5 0.7) 0.2,
    Sphere.new (Vec3.new (-11) 6 12) 4 RGB.white 1,
    Sphere.new (Vec3.new 6 (-9) 12) 5 RGB.black 1]
  let lights := [
    Light.new (Vec3.new (-3) 12 (-2)) 3700,
    Light.new (Vec3.new 12 12 22) 1250,
    Light.new (Vec3.new (-5) 8 30) 2500]
  ⟨camera, spheres, lights⟩

/-- One step of the `fold` in `Scene::light` that finds the nearest hit.
The accumulator `(Option<&Sphere>, f64)` starting at `(None, INFINITY)` is
modelled as `Option (Sphere × ℝ)`: `none` is the `(None, INFINITY)` start,
against which any finite `t` wins the strict `t < min.1` comparison. -/
def minStep (ray : Ray) (acc : Option (Sphere × ℝ)) (s : Sphere) : Option (Sphere × ℝ) :=
  match s.intersect ray with
  | some t =>
    match acc with
    | none => some (s, t)
    | some (s0, t0) => if t < t0 then some (s, t) else some (s0, t0)
  | none => acc

/-- The nearest-sphere fold of `Scene::light`. -/
def nearestHit (scene : Scene) (ray : Ray) : Option (Sphere × ℝ) :=
  scene.spheres.foldl (minStep ray) none

/-- The no-hit branch of `Scene::light`: the procedural sky/ground
background color derived from the ray direction. -/
def background (ray : Ray) : RGB :=
  let y := 0.7 - |ray.direction.y|
  let x0 := ray.direction.x / 2
  let x := if x0 < y then y else x0
  RGB.new x y x

/-- `Scene::light`: recursive shading.  The reflection recursion happens
only when the hit sphere's glossiness is positive and `depth < 100`, with
`depth + 1`, so the recursion is well founded on `100 - depth`. -/
def light (scene : Scene) (ray : Ray) (depth : ℕ) : RGB :=
  match scene.nearestHit ray with
  | some (sphere, t) =>
    let point := ray.point_at t
    let normal := sphere.surface_normal point
    let radiance := (scene.lights.map (fun l => l.illuminate scene.spheres point normal)).sum
    let color := sphere.color
    let color2 :=
      if h : 0 < sphere.glossiness ∧ depth < 100 then
        color.add ((scene.light (ray.reflect point normal.unit) (depth + 1)).shade
          sphere.glossiness)
      else color
    color2.shade radiance
  | none => background ray
termination_by 100 - depth
decreasing_by exact Nat.sub_lt_sub_left h.2 (Nat.lt_succ_self depth)

/-- `Scene::render`: row-major loop over pixels; offsets are
`x * (1 / width)` and `y * (1 / height)` as in the source. -/
def render (scene : Scene) (img : Image) : Image :=
  (List.range img.height).foldl (fun acc y =>
    (List.range img.width).foldl (fun acc2 x =>
      acc2.draw x y (scene.light
        (scene.camera.cast ((x : ℝ) * (1 / (img.width : ℝ))) ((y : ℝ) * (1 / (img.height : ℝ))))
        1)) acc) img

/-- `Scene::move_left`. -/
def move_left (s : Scene) : Scene := { s with camera := s.camera.move_one .left }

/-- `Scene::move_right`. -/
def move_right (s : Scene) : Scene := { s with camera := s.camera.move_one .right }

/-- `Scene::move_up`. -/
def move_up (s : Scene) : Scene := { s with camera := s.camera.move_one .up }

/-- `Scene::move_down`. -/
def move_down (s : Scene) : Scene := { s with camera := s.camera.move_one .down }

/-- `Scene::move_forward`. -/
def move_forward (s : Scene) : Scene := { s with camera := s.camera.move_one .forward }

/-- `Scene::move_back`. -/
def move_back (s : Scene) : Scene := { s with camera := s.camera.move_one .back }

end Scene

/-- Spec-side counterpart of `Sphere.intersect`, written after the spec's
words: discriminant test first, then the two roots
`−dot − sqrt(disc)`, `−dot + sqrt(disc)` checked in that order against
the `1e-10` epsilon. -/
def Sphere.intersectSpec (s : Sphere) (ray : Ray) : Option ℝ :=
  let oc := ray.origin.subtract s.center
  let d := (ray.direction.unit).dot oc
  let disc := sqr d - (sqr oc.length - sqr s.radius)
  if disc < 0 then none
  else if -d - Real.sqrt disc ≥ 1e-10 then some (-d - Real.sqrt disc)
  else if -d + Real.sqrt disc ≥ 1e-10 then some (-d + Real.sqrt disc)
  else none

/-- Spec-side serialization of one channel: clamp to `[0,1]`, multiply by
255, round to the nearest integer. -/
def specByte (x : ℝ) : ℕ := (roundAway (255 * max 0 (min x 1))).toNat

/-- The four serialized bytes of a color, per the spec: three clamped,
scaled, rounded channels and an alpha byte of 255. -/
def RGB.bytes (c : RGB) : List ℕ := [specByte c.red, specByte c.green, specByte c.blue, 255]

/-- `Scene::light` with the reflection contribution omitted: what the spec
says `light` returns at the recursion cap. -/
def Scene.lightBase (scene : Scene) (ray : Ray) : RGB :=
  match scene.nearestHit ray with
  | some (sphere, t) =>
    let point := ray.point_at t
    let normal := sphere.surface_normal point
    let radiance := (scene.lights.map (fun l => l.illuminate scene.spheres point normal)).sum
    sphere.color.shade radiance
  | none => Scene.background ray

/-- Spec-side counterpart of `Scene.render`: the buffer is the row-major
concatenation over pixels `(x, y)` of the serialized color of
`light(camera.cast(x / width, y / height), 1)`. -/
def Scene.renderSpec (scene : Scene) (img : Image) : Image :=
  { img with pixels :=
      ((List.range img.height).map (fun (y : ℕ) =>
        ((List.range img.width).map (fun (x : ℕ) =>
          (scene.light
            (scene.camera.cast ((x : ℝ) / (img.width : ℝ)) ((y : ℝ) / (img.height : ℝ)))
            1).bytes)).flatten)).flatten }

/-! ## Concrete fixtures used by witnesses -/

/-- A ray from the origin along the positive z axis. -/
def rayZ : Ray := Ray.new (Vec3.new 0 0 0) (Vec3.new 0 0 1)

/-- A unit sphere at `(0,0,5)`, red. -/
def sphereA : Sphere := Sphere.new (Vec3.new 0 0 5) 1 RGB.redColor 0

/-- A unit sphere at `(0,0,5)`, green: same geometry as `sphereA`, so the
two tie on every intersection parameter. -/
def sphereB : Sphere := Sphere.new (Vec3.new 0 0 5) 1 RGB.greenColor 0

/-- A scene holding the two tied spheres and no lights. -/
def sceneAB : Scene :=
  ⟨Camera.new (Vec3.new 0 0 0) (Film.new (Vec3.new 0 0 1) 1 1), [sphereA, sphereB], []⟩

/-- A scene with no spheres and no lights. -/
def sceneEmpty : Scene :=
  ⟨Camera.new (Vec3.new 0 0 0) (Film.new (Vec3.new 0 0 1) 1 1), [], []⟩

/-- A 1×1 image with a zeroed 4-byte buffer. -/
def image1 : Image := ⟨1, 1, [0, 0, 0, 0]⟩

/-! ## Basic vector lemmas -/

theorem Vec3.length_nonneg (v : Vec3) : 0 ≤ v.length := Real.sqrt_nonneg _

theorem Vec3.length_pos (v : Vec3) (hv : v ≠ Vec3.new 0 0 0) : 0 < v.length := by
  have hne : v.x ≠ 0 ∨ v.y ≠ 0 ∨ v.z ≠ 0 := by
    by_contra h
    push_neg at h
    exact hv (by ext <;> simp [Vec3.new, h.1, h.2.1, h.2.2])
  have hsum : 0 < sqr v.x + sqr v.y + sqr v.z := by
    rcases hne with hx | hy | hz
    · have := pow_two_pos_of_ne_zero hx
      have h1 := sq_nonneg v.y
      have h2 := sq_nonneg v.z
      simp only [sqr]
      nlinarith
    · have := pow_two_pos_of_ne_zero hy
      have h1 := sq_nonneg v.x
      have h2 := sq_nonneg v.z
      simp only [sqr]
      nlinarith
    · have := pow_two_pos_of_ne_zero hz
      have h1 := sq_nonneg v.x
      have h2 := sq_nonneg v.y
      simp only [sqr]
      nlinarith
  exact Real.sqrt_pos.mpr hsum

theorem Vec3.length_unit (v : Vec3) (hv : v ≠ Vec3.new 0 0 0) : v.unit.length = 1 := by
  have hQ : 0 ≤ sqr v.x + sqr v.y + sqr v.z := by
    have h1 := sq_nonneg v.x
    have h2 := sq_nonneg v.y
    have h3 := sq_nonneg v.z
    simp only [sqr]
    nlinarith
  have hL : 0 < v.length := v.length_pos hv
  have hL2 : v.length ^ 2 = sqr v.x + sqr v.y + sqr v.z := Real.sq_sqrt hQ
  have hinv : 0 ≤ 1 / v.length := by positivity
  have key : sqr (v.x * (1 / v.length)) + sqr (v.y * (1 / v.length)) +
      sqr (v.z * (1 / v.length)) = (sqr v.x + sqr v.y + sqr v.z) * (1 / v.length) ^ 2 := by
    simp only [sqr]
    ring
  simp only [Vec3.unit, Vec3.length, Vec3.new] at *
  rw [key, Real.sqrt_mul hQ, Real.sqrt_sq hinv]
  rw [show Real.sqrt (sqr v.x + sqr v.y + sqr v.z) = v.length from rfl]
  exact mul_one_div_cancel (ne_of_gt hL)

theorem Vec3.unit_of_length_one (w : Vec3) (h : w.length = 1) : w.unit = w := by
  ext <;> simp [Vec3.unit, Vec3.new, h]

theorem Vec3.unit_idem (v : Vec3) (hv : v ≠ Vec3.new 0 0 0) : v.unit.unit = v.unit :=
  Vec3.unit_of_length_one _ (v.length_unit hv)

/-- `find?` on a two-element list, written out as nested conditionals. -/
theorem find?_pair {α : Type} (p : α → Bool) (a b : α) :
    [a, b].find? p = if p a then some a else if p b then some b else none := by
  cases hpa : p a <;> cases hpb : p b <;> simp [List.find?, hpa, hpb]

/-- C9: for any non-zero vector `v`, the length of `v.unit()` equals 1
within tolerance `1e-9` (over the real-number model it is exactly 1). -/
theorem unit_length_within_tolerance (v : Vec3) (hv : v ≠ Vec3.new 0 0 0) :
    |v.unit.length - 1| ≤ 1e-9 := by
  rw [v.length_unit hv]
  norm_num

/-- Witness for C9 at the concrete vector `(3, 4, 0)`. -/
theorem unit_length_within_tolerance_witness :
    |(Vec3.new 3 4 0).unit.length - 1| ≤ 1e-9 := by
  have hv : Vec3.new 3 4 0 ≠ Vec3.new 0 0 0 := by
    intro h
    exact absurd (congrArg Vec3.x h) (by norm_num [Vec3.new])
  exact unit_length_within_tolerance (Vec3.new 3 4 0) hv

/-- C10: `Sphere::intersect` is invariant under normalizing the ray
direction: for a ray with non-zero direction, `intersect(ray)` equals
`intersect(ray.unit())`, because the direction is normalized internally. -/
theorem intersect_unit_invariant (s : Sphere) (r : Ray)
    (hd : r.direction ≠ Vec3.new 0 0 0) : s.intersect r = s.intersect r.unit := by
  simp only [Sphere.intersect, Ray.unit, Ray.new]
  rw [Vec3.unit_idem r.direction hd]

/-- Witness for C10 at a concrete sphere and a ray with direction
`(0, 0, 2)`. -/
theorem intersect_unit_invariant_witness :
    sphereA.intersect (Ray.new (Vec3.new 0 0 0) (Vec3.new 0 0 2)) =
      sphereA.intersect (Ray.new (Vec3.new 0 0 0) (Vec3.new 0 0 2)).unit := by
  have hd : (Ray.new (Vec3.new 0 0 0) (Vec3.new 0 0 2)).direction ≠ Vec3.new 0 0 0 := by
    intro h
    exact absurd (congrArg Vec3.z h) (by norm_num [Vec3.new, Ray.new])
  exact intersect_unit_invariant sphereA _ hd

/-- C7: `moveRight()` followed by `moveLeft()` restores the eye and the
film origin exactly (real-number model of the `±1.0` translations). -/
theorem move_right_left_id (s : Scene) : s.move_right.move_left = s := by
  obtain ⟨⟨⟨ex, ey, ez⟩, ⟨⟨ox, oy, oz⟩, w, h⟩⟩, ss, ls⟩ := s
  simp [Scene.move_right, Scene.move_left, Camera.move_one]

/-- C1: `Sphere::intersect` agrees everywhere with the spec's description:
normalize the direction, test the discriminant, and return the first of
`−dot − sqrt(disc)`, `−dot + sqrt(disc)` that is `≥ 1e-10`, if any. -/
theorem intersect_eq_intersectSpec (s : Sphere) (r : Ray) :
    s.intersect r = s.intersectSpec r := by
  simp only [Sphere.intersect, Sphere.intersectSpec, find?_pair, decide_eq_true_eq, ge_iff_le]

/-- C6 counterexample: on a color with a negative channel, `shade` is not
monotone in the factor: at `c = (−1, 0, 0)` the red channel strictly
decreases from `f = 1/4` to `f = 1/2`. -/
theorem shade_not_monotone_on_negative_channel :
    ((RGB.new (-1) 0 0).shade (1 / 2)).red < ((RGB.new (-1) 0 0).shade (1 / 4)).red := by
  norm_num [RGB.shade, RGB.new, RGB.black]

/-- C6 (amended): `shade 0` is black, `shade 1` is the identity, and for
`0 < f1 ≤ f2 < 1` each individually non-negative channel of
`c.shade f1` is at most the corresponding channel of `c.shade f2`. -/
theorem shade_zero_one_monotone (c : RGB) (f1 f2 : ℝ) :
    c.shade 0 = RGB.black ∧ c.shade 1 = c ∧
      (0 < f1 → f1 ≤ f2 → f2 < 1 →
        (0 ≤ c.red → (c.shade f1).red ≤ (c.shade f2).red) ∧
        (0 ≤ c.green → (c.shade f1).green ≤ (c.shade f2).green) ∧
        (0 ≤ c.blue → (c.shade f1).blue ≤ (c.shade f2).blue)) := by
  refine ⟨by simp [RGB.shade], by norm_num [RGB.shade], ?_⟩
  intro h1 h12 h2
  have hf1 : ¬f1 ≤ 0 := not_le.mpr h1
  have hf1' : ¬(1 : ℝ) ≤ f1 := not_le.mpr (lt_of_le_of_lt h12 h2)
  have hf2 : ¬f2 ≤ 0 := not_le.mpr (lt_of_lt_of_le h1 h12)
  have hf2' : ¬(1 : ℝ) ≤ f2 := not_le.mpr h2
  simp only [RGB.shade, if_neg hf1, if_neg hf1', if_neg hf2, if_neg hf2', RGB.new]
  exact ⟨fun h => mul_le_mul_of_nonneg_left h12 h,
    fun h => mul_le_mul_of_nonneg_left h12 h,
    fun h => mul_le_mul_of_nonneg_left h12 h⟩

/-- Witness for the amended C6 at `c = (1, 1/2, 0)`, `f1 = 1/4`,
`f2 = 1/2`. -/
theorem shade_zero_one_monotone_witness :
    (RGB.new 1 (1 / 2) 0).shade 0 = RGB.black ∧
      (RGB.new 1 (1 / 2) 0).shade 1 = RGB.new 1 (1 / 2) 0 ∧
      ((RGB.new 1 (1 / 2) 0).shade (1 / 4)).red ≤ ((RGB.new 1 (1 / 2) 0).shade (1 / 2)).red := by
  have h := shade_zero_one_monotone (RGB.new 1 (1 / 2) 0) (1 / 4) (1 / 2)
  exact ⟨h.1, h.2.1,
    (h.2.2 (by norm_num) (by norm_num) (by norm_num)).1 (by norm_num [RGB.new])⟩

/-- The shadow loop of `Light::illuminate` returns 0 exactly when some
sphere in the list intersects the unit ray closer than `len`, and the
cosine-weighted inverse-square formula otherwise. -/
theorem illumLoop_char (l : Light) (spheres : List Sphere) (u : Ray) (len : ℝ) (n : Vec3) :
    l.illumLoop spheres u len n =
      if ∃ s ∈ spheres, ∃ t, s.intersect u = some t ∧ t < len then 0
      else l.power * (n.dot u.direction / n.length) / (4 * Real.pi * sqr len) := by
  induction spheres with
  | nil => simp [Light.illumLoop]
  | cons s rest ih =>
    cases hi : s.intersect u with
    | none =>
      have hiff : (∃ s' ∈ s :: rest, ∃ t, s'.intersect u = some t ∧ t < len) ↔
          (∃ s' ∈ rest, ∃ t, s'.intersect u = some t ∧ t < len) := by
        constructor
        · rintro ⟨s', hs', t, ht, hlt⟩
          rcases List.mem_cons.mp hs' with rfl | hmem
          · rw [hi] at ht
            exact absurd ht (by simp)
          · exact ⟨s', hmem, t, ht, hlt⟩
        · rintro ⟨s', hs', t, ht, hlt⟩
          exact ⟨s', List.mem_cons_of_mem _ hs', t, ht, hlt⟩
      simp only [Light.illumLoop, hi]
      rw [ih]
      by_cases hc : ∃ s' ∈ rest, ∃ t, s'.intersect u = some t ∧ t < len
      · rw [if_pos hc, if_pos (hiff.mpr hc)]
      · rw [if_neg hc, if_neg (fun h => hc (hiff.mp h))]
    | some t =>
      by_cases hlt : t < len
      · have hc : ∃ s' ∈ s :: rest, ∃ t', s'.intersect u = some t' ∧ t' < len :=
          ⟨s, List.mem_cons_self _ _, t, hi, hlt⟩
        simp only [Light.illumLoop, hi]
        rw [if_pos hlt, if_pos hc]
      · have hiff : (∃ s' ∈ s :: rest, ∃ t', s'.intersect u = some t' ∧ t' < len) ↔
            (∃ s' ∈ rest, ∃ t', s'.intersect u = some t' ∧ t' < len) := by
          constructor
          · rintro ⟨s', hs', t', ht', hlt'⟩
            rcases List.mem_cons.mp hs' with rfl | hmem
            · rw [hi] at ht'
              obtain rfl : t = t' := by simpa using ht'
              exact absurd hlt' hlt
            · exact ⟨s', hmem, t', ht', hlt'⟩
          · rintro ⟨s', hs', t', ht', hlt'⟩
            exact ⟨s', List.mem_cons_of_mem _ hs', t', ht', hlt'⟩
        simp only [Light.illumLoop, hi]
        rw [if_neg hlt, ih]
        by_cases hc : ∃ s' ∈ rest, ∃ t', s'.intersect u = some t' ∧ t' < len
        · rw [if_pos hc, if_pos (hiff.mpr hc)]
        · rw [if_neg hc, if_neg (fun h => hc (hiff.mp h))]

/-- C3: `Light::illuminate` casts a ray from the point to the light; if
any sphere intersects the normalized ray closer than the ray's length the
result is exactly 0, and otherwise it is
`power * (dot(normal, unitDirection) / |normal|) / (4π · distance²)`. -/
theorem illuminate_char (l : Light) (spheres : List Sphere) (point normal : Vec3) :
    l.illuminate spheres point normal =
      if ∃ s ∈ spheres, ∃ t, s.intersect (Ray.cast point l.pos).unit = some t ∧
          t < (Ray.cast point l.pos).length then 0
      else l.power *
        (normal.dot ((Ray.cast point l.pos).unit).direction / normal.length) /
          (4 * Real.pi * (Ray.cast point l.pos).length ^ 2) := by
  simp only [Light.illuminate]
  rw [illumLoop_char]
  rfl

/-- C2: at the recursion cap (`depth ≥ 100`) the reflection contribution
is omitted: `Scene::light` returns the base shaded color (or the
background on a miss).  Termination itself is established by the
well-founded definition of `Scene.light` on `100 − depth`. -/
theorem light_depth_cap (scene : Scene) (ray : Ray) (depth : ℕ) (h : 100 ≤ depth) :
    scene.light ray depth = scene.lightBase ray := by
  rw [Scene.light]
  unfold Scene.lightBase
  cases hn : scene.nearestHit ray with
  | none => simp [hn]
  | some p =>
    obtain ⟨sphere, t⟩ := p
    simp only [hn]
    rw [dif_neg (fun hc => absurd hc.2 (by omega))]

/-- Witness for C2 at a concrete scene, ray and `depth = 100`. -/
theorem light_depth_cap_witness : sceneAB.light rayZ 100 = sceneAB.lightBase rayZ :=
  light_depth_cap sceneAB rayZ 100 (by norm_num)

/-- Folding `minStep` over spheres whose intersections all exceed `t`
preserves the invariant that the accumulator is the infinity start or
carries a parameter strictly larger than `t`. -/
theorem foldl_minStep_gt (ray : Ray) (t : ℝ) (ss : List Sphere) :
    ∀ acc : Option (Sphere × ℝ),
      (acc = none ∨ ∃ s0 t0, acc = some (s0, t0) ∧ t < t0) →
      (∀ s ∈ ss, ∀ u, s.intersect ray = some u → t < u) →
      (ss.foldl (Scene.minStep ray) acc = none ∨
        ∃ s0 t0, ss.foldl (Scene.minStep ray) acc = some (s0, t0) ∧ t < t0) := by
  induction ss with
  | nil =>
    intro acc hacc _
    simpa using hacc
  | cons s rest ih =>
    intro acc hacc hgt
    rw [List.foldl_cons]
    refine ih _ ?_ (fun s' hs' u hu => hgt s' (List.mem_cons_of_mem _ hs') u hu)
    cases hi : s.intersect ray with
    | none =>
      rcases hacc with h | ⟨s0, t0, h, ht0⟩
      · exact Or.inl (by simp [Scene.minStep, hi, h])
      · exact Or.inr ⟨s0, t0, by simp [Scene.minStep, hi, h], ht0⟩
    | some u =>
      have hu : t < u := hgt s (List.mem_cons_self _ _) u hi
      rcases hacc with h | ⟨s0, t0, h, ht0⟩
      · exact Or.inr ⟨s, u, by simp [Scene.minStep, hi, h], hu⟩
      · by_cases hcmp : u < t0
        · exact Or.inr ⟨s, u, by simp [Scene.minStep, hi, h, if_pos hcmp], hu⟩
        · exact Or.inr ⟨s0, t0, by simp [Scene.minStep, hi, h, if_neg hcmp], ht0⟩

/-- Once the accumulator holds a globally minimal parameter `t`, folding
`minStep` over spheres whose intersections are all `≥ t` leaves it
unchanged: the strict `<` comparison never replaces it. -/
theorem foldl_minStep_stable (ray : Ray) (sk : Sphere) (t : ℝ) (ss : List Sphere)
    (hge : ∀ s ∈ ss, ∀ u, s.intersect ray = some u → t ≤ u) :
    ss.foldl (Scene.minStep ray) (some (sk, t)) = some (sk, t) := by
  induction ss with
  | nil => rfl
  | cons s rest ih =>
    rw [List.foldl_cons]
    have hstep : Scene.minStep ray (some (sk, t)) s = some (sk, t) := by
      cases hi : s.intersect ray with
      | none => simp [Scene.minStep, hi]
      | some u =>
        have hu : t ≤ u := hge s (List.mem_cons_self _ _) u hi
        simp [Scene.minStep, hi, if_neg (not_lt.mpr hu)]
    rw [hstep]
    exact ih fun s' hs' u hu => hge s' (List.mem_cons_of_mem _ hs') u hu

/-- C4: the nearest-sphere scan keeps the minimum under a strict `<`
comparison starting from the no-hit/infinity accumulator, so the sphere at
the earliest position `k` attaining the minimal parameter `t` (all earlier
spheres miss or intersect strictly farther, all spheres intersect no
closer) is the one selected. -/
theorem nearestHit_earliest_min (scene : Scene) (ray : Ray) (k : ℕ)
    (hk : k < scene.spheres.length) (t : ℝ)
    (hkt : (scene.spheres.get ⟨k, hk⟩).intersect ray = some t)
    (hbefore : ∀ s ∈ scene.spheres.take k, ∀ u, s.intersect ray = some u → t < u)
    (hmin : ∀ s ∈ scene.spheres, ∀ u, s.intersect ray = some u → t ≤ u) :
    scene.nearestHit ray = some (scene.spheres.get ⟨k, hk⟩, t) := by
  unfold Scene.nearestHit
  set pre := scene.spheres.take k with hpre
  set sk := scene.spheres.get ⟨k, hk⟩ with hsk
  set post := scene.spheres.drop (k + 1) with hpost
  have hsplit : scene.spheres = pre ++ sk :: post := by
    rw [hpre, hsk, hpost]
    conv_lhs => rw [← List.take_append_drop k scene.spheres]
    congr 1
    exact (List.get_cons_drop scene.spheres ⟨k, hk⟩).symm
  rw [hsplit, List.foldl_append, List.foldl_cons]
  have hgood := foldl_minStep_gt ray t pre none (Or.inl rfl) hbefore
  have hstep : Scene.minStep ray (pre.foldl (Scene.minStep ray) none) sk = some (sk, t) := by
    rcases hgood with h | ⟨s0, t0, h, ht0⟩
    · rw [h]
      simp [Scene.minStep, hkt]
    · rw [h]
      simp [Scene.minStep, hkt, if_pos ht0]
  rw [hstep]
  refine foldl_minStep_stable ray sk t post fun s hs u hu => ?_
  have hmem : s ∈ scene.spheres := by
    rw [hsplit]
    exact List.mem_append_right _ (List.mem_cons_of_mem _ hs)
  exact hmin s hmem u hu

/-- Concrete evaluation: any unit sphere at `(0,0,5)` meets the unit ray
along positive z at parameter 4 (the entry root). -/
theorem intersect_ball_z (col : RGB) (g : ℝ) :
    (Sphere.new (Vec3.new 0 0 5) 1 col g).intersect rayZ = some 4 := by
  have hu : Vec3.unit ⟨0, 0, 1⟩ = (⟨0, 0, 1⟩ : Vec3) :=
    Vec3.unit_of_length_one _ (by simp [Vec3.length, sqr])
  have h25 : Real.sqrt ((0 : ℝ) ^ 2 + 0 ^ 2 + (-5) ^ 2) ^ 2 = (0 : ℝ) ^ 2 + 0 ^ 2 + (-5) ^ 2 :=
    Real.sq_sqrt (by norm_num)
  simp only [Sphere.intersect, Sphere.new, rayZ, Ray.new, hu, Vec3.subtract, Vec3.new, Vec3.dot,
    Vec3.length, sqr, find?_pair, decide_eq_true_eq]
  norm_num [h25, Real.sqrt_one]

/-- Witness for C4: in the scene `[sphereA, sphereB]` whose two spheres
tie at the minimal parameter 4, the earlier sphere wins. -/
theorem nearestHit_earliest_min_witness : sceneAB.nearestHit rayZ = some (sphereA, 4) := by
  have hk : 0 < sceneAB.spheres.length := by simp [sceneAB]
  have hA : sphereA.intersect rayZ = some 4 := intersect_ball_z RGB.redColor 0
  have hB : sphereB.intersect rayZ = some 4 := intersect_ball_z RGB.greenColor 0
  have hkt : (sceneAB.spheres.get ⟨0, hk⟩).intersect rayZ = some 4 := hA
  have hb : ∀ s ∈ sceneAB.spheres.take 0, ∀ u, s.intersect rayZ = some u → (4 : ℝ) < u := by
    intro s hs
    simp at hs
  have hm : ∀ s ∈ sceneAB.spheres, ∀ u, s.intersect rayZ = some u → (4 : ℝ) ≤ u := by
    intro s hs u hu
    have : s = sphereA ∨ s = sphereB := by simpa [sceneAB] using hs
    rcases this with rfl | rfl
    · rw [hA] at hu
      exact le_of_eq (by injection hu)
    · rw [hB] at hu
      exact le_of_eq (by injection hu)
  exact nearestHit_earliest_min sceneAB rayZ 0 hk 4 hkt hb hm

/-- One serialized channel: `(255 * min(x, 1)).round() as u8` equals the
spec's clamp-scale-round byte.  For `x < 0` the saturating cast supplies
the missing lower clamp. -/
theorem writeByte_eq_specByte (x : ℝ) : satU8 (roundAway (255 * min x 1)) = specByte x := by
  unfold satU8 specByte
  rcases le_or_lt x 0 with hx | hx
  · have hmin : min x 1 = x := min_eq_left (by linarith)
    rw [hmin, max_eq_left hx, mul_zero]
    have hr : roundAway (255 * x) ≤ 0 := by
      unfold roundAway
      split_ifs with h0
      · have hx0 : 255 * x = 0 := le_antisymm (by nlinarith) h0
        rw [hx0]
        norm_num
      · exact Int.ceil_le.mpr (by push_cast; nlinarith)
    have h0 : roundAway 0 = 0 := by
      unfold roundAway
      rw [if_pos le_rfl, zero_add]
      norm_num
    rw [h0, min_eq_left (by omega : roundAway (255 * x) ≤ 255), max_eq_left hr]
  · rcases lt_or_le x 1 with hx1 | hx1
    · have hmin : min x 1 = x := min_eq_left (le_of_lt hx1)
      rw [hmin, max_eq_right (le_of_lt hx)]
      have hpos : (0 : ℝ) ≤ 255 * x + 1 / 2 := by nlinarith
      have h0 : (0 : ℤ) ≤ roundAway (255 * x) := by
        unfold roundAway
        rw [if_pos (by nlinarith)]
        exact Int.le_floor.mpr (by push_cast; nlinarith)
      have h255 : roundAway (255 * x) ≤ 255 := by
        unfold roundAway
        rw [if_pos (by nlinarith)]
        have hlt : ⌊255 * x + 1 / 2⌋ < 256 := Int.floor_lt.mpr (by push_cast; nlinarith)
        omega
      rw [min_eq_left h255, max_eq_right h0]
    · have hmin : min x 1 = 1 := min_eq_right hx1
      rw [hmin, max_eq_right (by norm_num : (0 : ℝ) ≤ 1)]
      have h255 : roundAway (255 * 1) = 255 := by
        unfold roundAway
        rw [if_pos (by norm_num), mul_one]
        norm_num
      rw [h255]
      norm_num

/-- On a 4-byte slice, `RGB::write` produces exactly the serialized
bytes `RGB.bytes`. -/
theorem write_bytes_aux (c : RGB) (pixels : List ℕ) (h : pixels.length = 4) :
    c.write pixels = c.bytes := by
  rcases pixels with _ | ⟨p0, _ | ⟨p1, _ | ⟨p2, _ | ⟨p3, rest⟩⟩⟩⟩
  · simp at h
  · simp at h
  · simp at h
  · simp at h
  · obtain rfl : rest = [] := by
      simpa using List.eq_nil_of_length_eq_zero (by simpa using h)
    simp [RGB.write, RGB.bytes, writeByte_eq_specByte]

/-- C5: on a 4-byte slice, `RGB::write` stores the three clamped, scaled,
rounded channel bytes followed by an alpha byte of 255. -/
theorem write_eq_bytes (c : RGB) (pixels : List ℕ) (h : pixels.length = 4) :
    c.write pixels = [specByte c.red, specByte c.green, specByte c.blue, 255] :=
  write_bytes_aux c pixels h

theorem bytes_length (c : RGB) : c.bytes.length = 4 := rfl

/-- The flattened bytes of a row prefix of `k` pixels occupy `4 * k`
bytes. -/
theorem rowBytes_length (f : ℕ → RGB) (k : ℕ) :
    (((List.range k).map (fun x => (f x).bytes)).flatten).length = 4 * k := by
  induction k with
  | zero => simp
  | succ k ih =>
    rw [List.range_succ, List.map_append, List.flatten_append, List.length_append, ih]
    simp [bytes_length]
    omega

/-- Folding `Image.draw` along row `y` writes the serialized pixel bytes
into consecutive 4-byte slots of the row, leaving the rest of the buffer
unchanged. -/
theorem foldl_draw_row (w y : ℕ) (f : ℕ → RGB) (img0 : Image) (hw : img0.width = w)
    (hlen : 4 * (y * w) + 4 * w ≤ img0.pixels.length) (k : ℕ) (hk : k ≤ w) :
    (List.range k).foldl (fun acc x => acc.draw x y (f x)) img0 =
      { img0 with pixels :=
          img0.pixels.take (4 * (y * w)) ++
            ((List.range k).map (fun x => (f x).bytes)).flatten ++
              img0.pixels.drop (4 * (y * w) + 4 * k) } := by
  induction k with
  | zero =>
    simp [List.take_append_drop]
  | succ k ih =>
    have hk' : k ≤ w := Nat.le_of_succ_le hk
    rw [List.range_succ, List.foldl_append, ih hk']
    simp only [List.foldl_cons, List.foldl_nil]
    set A := img0.pixels.take (4 * (y * w)) with hA
    set J := ((List.range k).map (fun x => (f x).bytes)).flatten with hJ
    set D := img0.pixels.drop (4 * (y * w) + 4 * k) with hD
    have hlenA : A.length = 4 * (y * w) := by
      rw [hA, List.length_take]
      omega
    have hlenJ : J.length = 4 * k := rowBytes_length f k
    have hlenAJ : (A ++ J).length = 4 * (y * w) + 4 * k := by
      rw [List.length_append, hlenA, hlenJ]
    unfold Image.draw
    have hwidth : (A ++ J ++ D).length = img0.pixels.length := by
      rw [List.length_append, hlenAJ, hD, List.length_drop]
      omega
    have hidx : (k + y * img0.width) * 4 = 4 * (y * w) + 4 * k := by
      rw [hw]
      ring
    simp only [hidx]
    have htake : (A ++ J ++ D).take (4 * (y * w) + 4 * k) = A ++ J := by
      rw [List.take_left' hlenAJ]
    have hdropAJ : (A ++ J ++ D).drop (4 * (y * w) + 4 * k) = D := by
      rw [List.drop_left' hlenAJ]
    have hslice : ((A ++ J ++ D).drop (4 * (y * w) + 4 * k)).take 4 = D.take 4 := by
      rw [hdropAJ]
    have hDlen : 4 ≤ D.length := by
      rw [hD, List.length_drop]
      omega
    have hslice4 : (D.take 4).length = 4 := by
      rw [List.length_take]
      omega
    have hwrite : (f k).write (D.take 4) = (f k).bytes :=
      write_bytes_aux (f k) (D.take 4) hslice4
    have hdrop4 : (A ++ J ++ D).drop (4 * (y * w) + 4 * k + 4) =
        img0.pixels.drop (4 * (y * w) + 4 * (k + 1)) := by
      have h1 : (A ++ J ++ D).drop ((A ++ J).length + 4) = D.drop 4 := by
        rw [List.drop_append]
      rw [hlenAJ] at h1
      rw [h1, hD, List.drop_drop]
      congr 1
    rw [htake, hslice, hwrite, hdrop4]
    simp [hJ, List.map_append, List.flatten_append, List.append_assoc]

/-- The flattened bytes of `j` full rows of width `w` occupy
`4 * (j * w)` bytes. -/
theorem rowsBytes_length (g : ℕ → ℕ → RGB) (w j : ℕ) :
    (((List.range j).map
        (fun y => ((List.range w).map (fun x => (g x y).bytes)).flatten)).flatten).length =
      4 * (j * w) := by
  induction j with
  | zero => simp
  | succ j ih =>
    rw [List.range_succ, List.map_append, List.flatten_append, List.length_append, ih]
    have hrow := rowBytes_length (fun x => g x j) w
    have hsucc : (j + 1) * w = j * w + w := Nat.succ_mul j w
    simp only [List.map_cons, List.map_nil, List.flatten_cons, List.flatten_nil,
      List.append_nil, hrow]
    omega

/-- Folding the per-row draws over the first `j` rows replaces the first
`4 * (j * w)` buffer bytes by the serialized rows, in row-major order. -/
theorem foldl_draw_rows (w h : ℕ) (g : ℕ → ℕ → RGB) (img0 : Image) (hw : img0.width = w)
    (hlen : img0.pixels.length = 4 * (w * h)) (j : ℕ) (hj : j ≤ h) :
    (List.range j).foldl
        (fun acc y => (List.range w).foldl (fun acc2 x => acc2.draw x y (g x y)) acc) img0 =
      { img0 with pixels :=
          ((List.range j).map
              (fun y => ((List.range w).map (fun x => (g x y).bytes)).flatten)).flatten ++
            img0.pixels.drop (4 * (j * w)) } := by
  induction j with
  | zero => simp
  | succ j ih =>
    have hj' : j ≤ h := Nat.le_of_succ_le hj
    rw [List.range_succ, List.foldl_append, ih hj']
    simp only [List.foldl_cons, List.foldl_nil]
    set Rows := ((List.range j).map
      (fun y => ((List.range w).map (fun x => (g x y).bytes)).flatten)).flatten with hRows
    set Rest := img0.pixels.drop (4 * (j * w)) with hRest
    have hRowsLen : Rows.length = 4 * (j * w) := rowsBytes_length g w j
    have hjw : j * w ≤ h * w := Nat.mul_le_mul_right w hj'
    have hj1w : (j + 1) * w ≤ h * w := Nat.mul_le_mul_right w hj
    have hsucc : (j + 1) * w = j * w + w := Nat.succ_mul j w
    have hcomm : w * h = h * w := Nat.mul_comm w h
    have hRestLen : Rest.length = img0.pixels.length - 4 * (j * w) := by
      rw [hRest, List.length_drop]
    have hmidlen : 4 * (j * w) + 4 * w ≤ (Rows ++ Rest).length := by
      rw [List.length_append, hRowsLen, hRestLen, hlen]
      omega
    have happ := foldl_draw_row w j (fun x => g x j)
      { img0 with pixels := Rows ++ Rest } hw hmidlen w le_rfl
    rw [happ]
    have htake : (Rows ++ Rest).take (4 * (j * w)) = Rows := List.take_left' hRowsLen
    have hdrop : (Rows ++ Rest).drop (4 * (j * w) + 4 * w) =
        img0.pixels.drop (4 * ((j + 1) * w)) := by
      have h1 : (Rows ++ Rest).drop (Rows.length + 4 * w) = Rest.drop (4 * w) := by
        rw [List.drop_append]
      rw [hRowsLen] at h1
      rw [h1, hRest, List.drop_drop]
      congr 1
      omega
    rw [htake, hdrop]
    simp [List.map_append, List.flatten_append, List.append_assoc]

/-- C8: for an image with positive dimensions and a row-major RGBA8
buffer of exactly `4 * width * height` bytes, `Scene::render` produces
the row-major concatenation, over pixels `(x, y)`, of the serialized
color of `light(camera.cast(x / width, y / height), 1)`. -/
theorem render_eq_renderSpec (scene : Scene) (img : Image) (hw : 0 < img.width)
    (hh : 0 < img.height) (hlen : img.pixels.length = 4 * (img.width * img.height)) :
    scene.render img = scene.renderSpec img := by
  unfold Scene.render Scene.renderSpec
  have h := foldl_draw_rows img.width img.height
    (fun x y => scene.light
      (scene.camera.cast ((x : ℝ) * (1 / (img.width : ℝ))) ((y : ℝ) * (1 / (img.height : ℝ))))
      1)
    img rfl hlen img.height le_rfl
  rw [h]
  have hdrop : img.pixels.drop (4 * (img.height * img.width)) = [] := by
    apply List.drop_eq_nil_of_le
    rw [hlen]
    have := Nat.mul_comm img.width img.height
    omega
  rw [hdrop, List.append_nil]
  simp only [mul_one_div]

/-- Witness for C8 on a 1×1 image and a scene with no spheres. -/
theorem render_eq_renderSpec_witness :
    0 < image1.width ∧ 0 < image1.height ∧
      image1.pixels.length = 4 * (image1.width * image1.height) ∧
      sceneEmpty.render image1 = sceneEmpty.renderSpec image1 :=
  ⟨by decide, by decide, rfl,
    render_eq_renderSpec sceneEmpty image1 (by decide) (by decide) rfl⟩

/-- Witness for C5 at a concrete color with one in-range, one negative
and one above-one channel, on a concrete 4-byte slice. -/
theorem write_eq_bytes_witness :
    ([9, 9, 9, 9] : List ℕ).length = 4 ∧
      (RGB.new (1 / 2) (-1) 2).write [9, 9, 9, 9] =
        [specByte (1 / 2), specByte (-1), specByte 2, 255] :=
  ⟨rfl, write_eq_bytes (RGB.new (1 / 2) (-1) 2) [9, 9, 9, 9] rfl⟩

end
